import Mathlib

/-!
# Acode Prettier plugin: position/offset translation, parser inference,
# config resolution and request assembly

A shallow embedding of `src/main.js` (class `AcodePrettier`).

A JavaScript string is modelled as the list of its code units (`Str`); every
string operation the plugin uses (`length`, `split`, `join`, `slice`,
`lastIndexOf`, `startsWith`, `===`) only counts units or compares them for
equality. Editor rows, columns and offsets are natural numbers. A thrown
`TypeError` is the result `none`.
-/

namespace AcodePrettier

/-- A JavaScript string as the sequence of its code units. -/
abbrev Str := List Char

/-- An editor position `{ row, column }`, zero-based. -/
structure Position where
  row : Nat
  column : Nat
deriving DecidableEq, Repr

/-- The call `text.split("\n")`: the pieces between newlines; never empty. -/
def splitLines : Str → List Str
  | [] => [[]]
  | c :: cs =>
    if c = '\n' then [] :: splitLines cs
    else
      match splitLines cs with
      | [] => [[c]]
      | l :: ls => (c :: l) :: ls

/-- The call `lines.join("\n")`. -/
def joinLines : List Str → Str
  | [] => []
  | [l] => l
  | l :: m :: ls => l ++ '\n' :: joinLines (m :: ls)

/-- The loop of `#positionToOffset` (main.js 261-264): `row` iterations left,
the lines from index `i` on, the running `column`. Reading `lines[i].length`
past the end of the array throws. -/
def positionToOffsetLoop : List Str → Nat → Nat → Option Nat
  | _, 0, column => some column
  | [], _ + 1, _ => none
  | line :: rest, row + 1, column =>
    positionToOffsetLoop rest row (column + line.length + 1)

/-- The method `#positionToOffset` (main.js 256-265) on the document `text`. -/
def positionToOffset (text : Str) (position : Position) : Option Nat :=
  positionToOffsetLoop (splitLines text) position.row position.column

/-- The loop of `#cursorOffsetToCursorPos` (main.js 303-310) over the lines
from index `i` on, with the running `column`. Falling out of the loop leaves
`row = 0` and `column` as accumulated. When a line is selected the running
`column` is at most `cursorOffset` (the test failed on every earlier line,
none of them the last), so the subtraction is exact on natural numbers. -/
def cursorOffsetLoop (linesCount cursorOffset : Nat) : List Str → Nat → Nat → Position
  | [], _, column => ⟨0, column⟩
  | line :: rest, i, column =>
    if column + line.length + (if i ≠ linesCount - 1 then 1 else 0) > cursorOffset then
      ⟨i, cursorOffset - column⟩
    else
      cursorOffsetLoop linesCount cursorOffset rest (i + 1) (column + line.length + 1)

/-- The method `#cursorOffsetToCursorPos` (main.js 296-316) on the document
`text`. -/
def cursorOffsetToCursorPos (text : Str) (cursorOffset : Nat) : Position :=
  let lines := splitLines text
  cursorOffsetLoop lines.length cursorOffset lines 0 0

/-- A position is valid in `text`: its row is a line of the text and its
column lies within that line, the end of the line included. -/
def ValidPosition (text : Str) (p : Position) : Prop :=
  p.row < (splitLines text).length ∧ p.column ≤ ((splitLines text).getD p.row []).length

instance (text : Str) (p : Position) : Decidable (ValidPosition text p) := by
  unfold ValidPosition; infer_instance

/-- Each of the lines followed by one newline, concatenated. -/
def linesWithNewlines : List Str → Str
  | [] => []
  | l :: ls => l ++ '\n' :: linesWithNewlines ls

/-! ### Parser inference -/

/-- The call `s.lastIndexOf(c)` for a one-unit search string: the index of
the last occurrence, `-1` when there is none. -/
def lastIndexOf (c : Char) : Str → Int
  | [] => -1
  | x :: xs =>
    let r := lastIndexOf c xs
    if 0 ≤ r then r + 1 else if x = c then 0 else -1

/-- The call `s.slice(start)`: a negative `start` counts from the end and is
clamped at the beginning of the string. -/
def sliceFrom (s : Str) (start : Int) : Str :=
  if start < 0 then s.drop ((s.length : Int) + start).toNat else s.drop start.toNat

/-- The static method `inferParser` (main.js 78-110). -/
def inferParser (filename : Str) : Str :=
  let ext := sliceFrom filename (lastIndexOf '.' filename + 1)
  if ext = "html".toList ∨ ext = "htm".toList then "html".toList
  else if ext = "js".toList ∨ ext = "cjs".toList ∨ ext = "es".toList ∨ ext = "mjs".toList
      ∨ ext = "jsx".toList then "babel".toList
  else if ext = "ts".toList ∨ ext = "tsx".toList then "typescript".toList
  else if ext = "hbs".toList ∨ ext = "handlebars".toList then "glimmer".toList
  else if ext = "md".toList then "markdown".toList
  else if ext = "yaml".toList ∨ ext = "yml".toList then "yaml".toList
  else ext

/-- The extension table as the specification lists it. -/
def extensionTable : List (Str × Str) :=
  [("html".toList, "html".toList), ("htm".toList, "html".toList),
   ("js".toList, "babel".toList), ("cjs".toList, "babel".toList),
   ("es".toList, "babel".toList), ("mjs".toList, "babel".toList),
   ("jsx".toList, "babel".toList),
   ("ts".toList, "typescript".toList), ("tsx".toList, "typescript".toList),
   ("hbs".toList, "glimmer".toList), ("handlebars".toList, "glimmer".toList),
   ("md".toList, "markdown".toList),
   ("yaml".toList, "yaml".toList), ("yml".toList, "yaml".toList)]

/-- The table image of an extension: its entry in the table, and the
extension itself when the table has none. -/
def tableImage (ext : Str) : Str :=
  ((extensionTable.find? (fun e => e.1 = ext)).map Prod.snd).getD ext

/-! ### Config resolution -/

/-- The call `s.startsWith(searchString)`. -/
def startsWith (s searchString : Str) : Bool := searchString.isPrefixOf s

/-- An open project folder of the host (`window.addedFolder`); only its
`url` is read. -/
structure Folder where
  url : Str
deriving DecidableEq, Repr

/-- One call of the `forEach` callback of `#getConfigFile` (main.js 457-464)
on the running `root`. -/
def searchRootStep (uri : Str) (root : Str) (folder : Folder) : Str :=
  if startsWith folder.url uri then
    if folder.url.length < root.length ∨ root = [] then folder.url else root
  else root

/-- The search root of `#getConfigFile` (main.js 455-466). `dirname` is the
host's `url.dirname`. -/
def configSearchRoot (dirname : Str → Str) (addedFolder : List Folder) (uri : Str) : Str :=
  let root := addedFolder.foldl (searchRootStep uri) []
  if root ≠ [] then root else dirname uri

/-- The filenames probed by `#getConfigFile`, in order (main.js 467-479). -/
def configFilenames : List Str :=
  [".prettierrc".toList, ".prettierrc.json".toList, ".prettierrc.yaml".toList,
   ".prettierrc.yml".toList, ".prettierrc.toml".toList, ".prettierrc.js".toList,
   ".prettier.config.js".toList, ".prettierrc.mjs".toList, ".prettierrc.config.mjs".toList,
   ".prettierrc.cjs".toList, ".prettierrc.config.cjs".toList]

/-- The async callback mapped over the filenames (main.js 479-484): its
promise resolves with the joined path when the file exists and with
`undefined` (`none`) otherwise. `join` is the host's `url.join`, `fileExists`
the answer of `fs(path).exists()`. -/
def probe (join : Str → Str → Str) (fileExists : Str → Bool) (root filename : Str) :
    Option Str :=
  let configFile := join root filename
  if fileExists configFile then some configFile else none

/-- One promise given to `Promise.all` settles: its value goes to the slot of
its own index in the result array. -/
def settle {α : Type} (values : List α) (slots : List (Option α)) (i : Nat) :
    List (Option α) :=
  match values[i]? with
  | some v => slots.set i (some v)
  | none => slots

/-- The built-in `Promise.all` on promises that fulfil with `values`, settling
in the order `settleOrder` (indices into the input): it is fulfilled, with
the array of slots, once every slot is filled, and pending (`none`) before. -/
def promiseAll {α : Type} (values : List α) (settleOrder : List Nat) : Option (List α) :=
  let slots := settleOrder.foldl (settle values) (List.replicate values.length none)
  if slots.all Option.isSome then some (slots.filterMap id) else none

/-- JavaScript truthiness of a probe result: `undefined` and the empty
string are falsy. -/
def truthy : Option Str → Bool
  | some (_ :: _) => true
  | _ => false

/-- The config file selected by `#getConfigFile` (main.js 467-487): the outer
`none` is a pending `Promise.all`, the inner `none` is `undefined`. -/
def selectConfigFile (join : Str → Str → Str) (fileExists : Str → Bool) (root : Str)
    (settleOrder : List Nat) : Option (Option Str) :=
  (promiseAll (configFilenames.map (probe join fileExists root)) settleOrder).map
    fun configFiles => (configFiles.find? truthy).join

/-- How `#getConfigFile` reads the selected file. -/
inductive ConfigFormat where
  | json
  | yaml
  | toml
  | esModuleScript
  | commonJsScript
deriving DecidableEq, Repr

/-- The `switch` of `#getConfigFile` on the basename of the selected file
(main.js 491-527); `none` is falling out of the switch, where the method
returns `undefined`. -/
def configFormat (basename : Str) : Option ConfigFormat :=
  if basename = ".prettierrc".toList ∨ basename = ".prettierrc.json".toList then
    some .json
  else if basename = ".prettierrc.yaml".toList ∨ basename = ".prettierrc.yml".toList then
    some .yaml
  else if basename = ".prettierrc.toml".toList then some .toml
  else if basename = ".prettierrc.js".toList ∨ basename = "prettier.config.js".toList
      ∨ basename = ".prettierrc.mjs".toList ∨ basename = ".prettierrc.config.mjs".toList then
    some .esModuleScript
  else if basename = ".prettierrc.cjs".toList ∨ basename = ".prettierrc.config.cjs".toList then
    some .commonJsScript
  else none

/-! ### Option records and format requests -/

/-- A JavaScript value held in an options record. `host` is a value that the
plugin only passes on (the formatter plugins). -/
inductive Value where
  | undefined
  | null
  | bool (b : Bool)
  | num (n : Int)
  | infinity
  | str (s : Str)
  | host (tag : Str)
deriving DecidableEq, Repr

/-- A JavaScript object: its own enumerable keys in insertion order and the
value stored under each key. -/
structure Obj where
  keys : List Str
  val : Str → Value

namespace Obj

/-- The object `{}`. -/
def empty : Obj := ⟨[], fun _ => Value.undefined⟩

/-- The test `key in o` for own properties. -/
def hasKey (o : Obj) (key : Str) : Prop := key ∈ o.keys

instance (o : Obj) (key : Str) : Decidable (o.hasKey key) := by
  unfold hasKey; infer_instance

/-- The read `o[key]`: `undefined` for a key the object does not have. -/
def get (o : Obj) (key : Str) : Value :=
  if key ∈ o.keys then o.val key else Value.undefined

/-- The write `o[key] = value`: a present key keeps its place, a new key is
added last. -/
def set (o : Obj) (key : Str) (value : Value) : Obj :=
  ⟨if key ∈ o.keys then o.keys else o.keys ++ [key],
   fun k => if k = key then value else o.val k⟩

/-- An object literal `{ k1: v1, k2: v2, ... }`. -/
def ofList (fields : List (Str × Value)) : Obj :=
  fields.foldl (fun o kv => o.set kv.1 kv.2) empty

/-- The call `Object.assign(target, source)`, which is also the spread
`{ ...target, ...source }`: every own key of `source` is written to
`target` in turn. -/
def assign (target source : Obj) : Obj :=
  source.keys.foldl (fun o key => o.set key (source.get key)) target

end Obj

/-- The field initialiser `prettierOptions` (main.js 27-51). -/
def defaultPrettierOptions : Obj :=
  Obj.ofList
    [("printWidth".toList, .num 80), ("tabWidth".toList, .num 4),
     ("useTabs".toList, .bool false), ("semi".toList, .bool true),
     ("singleQuote".toList, .bool false), ("quoteProps".toList, .str "as-needed".toList),
     ("jsxSingleQuote".toList, .bool false), ("trailingComma".toList, .str "none".toList),
     ("bracketSpacing".toList, .bool true), ("bracketSameLine".toList, .bool false),
     ("arrowParens".toList, .str "avoid".toList), ("rangeStart".toList, .num 0),
     ("rangeEnd".toList, .infinity), ("requirePragma".toList, .bool false),
     ("insertPragma".toList, .bool false), ("proseWrap".toList, .str "preserve".toList),
     ("htmlWhitespaceSensitivity".toList, .str "css".toList),
     ("vueIndentScriptAndStyle".toList, .bool false), ("endOfLine".toList, .str "lf".toList),
     ("embeddedLanguageFormatting".toList, .str "auto".toList),
     ("singleAttributePerLine".toList, .bool false),
     ("openErrorPageOnErrors".toList, .bool true), ("version".toList, .num 3)]

/-- The value of `this.prettierOptions` after the constructor (main.js
68-75), given the persisted settings record of the plugin (`none` when there
is none). -/
def constructorOptions (prettierSettings : Option Obj) : Obj :=
  match prettierSettings with
  | none => defaultPrettierOptions
  | some settings =>
    if settings.get "version".toList ≠ defaultPrettierOptions.get "version".toList then
      defaultPrettierOptions
    else
      (Obj.assign defaultPrettierOptions settings).set "rangeEnd".toList
        (match settings.get "rangeEnd".toList with
         | .undefined => .infinity
         | .null => .infinity
         | v => v)

/-- The method `onSettingsChange` (main.js 701-705) on `this.prettierOptions`. -/
def onSettingsChange (prettierOptions : Obj) (key : Str) (value : Value) : Obj :=
  prettierOptions.set key value

/-- An editor range `{ start, end }`. -/
structure Range where
  start : Position
  end_ : Position
deriving DecidableEq, Repr

/-- The method `#getSelectionText` (main.js 267-294): the selection widened
to whole lines, and the text of those lines. -/
def getSelectionText (range : Range) (code : Str) : Range × Str :=
  let lines := splitLines code
  let startRow := range.start.row
  let endRow := range.end_.row
  let endRow := if range.end_.column = 0 ∧ endRow > startRow then endRow - 1 else endRow
  let endRow := min endRow (lines.length - 1)
  let selectionRange : Range :=
    ⟨⟨startRow, 0⟩, ⟨endRow, ((lines[endRow]?).map List.length).getD 0⟩⟩
  let selectedLines := (lines.take (endRow + 1)).drop startRow
  (selectionRange, joinLines selectedLines)

/-- What `run` and `runSelection` hand over for formatting: the message
posted to the worker, which is also the argument list of the direct call. -/
structure FormatRequest where
  code : Str
  cursorOptions : Obj
  isSelection : Bool
  selectionRange : Option Range

/-- The method `run` (main.js 155-176) up to the hand-over: `configFile` is
the result of `#getConfigFile` (`none` for a falsy result), and a throwing
`#positionToOffset` gives `none`. -/
def run (prettierOptions : Obj) (configFile : Option Obj) (activeFileName code : Str)
    (cursorPos : Position) : Option FormatRequest :=
  let parser := inferParser activeFileName
  let prettierOptions := configFile.getD prettierOptions
  match positionToOffset code cursorPos with
  | none => none
  | some cursorOffset =>
    some
      { code := code
        cursorOptions :=
          Obj.assign
            (Obj.ofList
              [("parser".toList, .str parser), ("cursorOffset".toList, .num cursorOffset),
               ("filepath".toList, .str activeFileName)])
            prettierOptions
        isSelection := false
        selectionRange := none }

/-- The method `runSelection` (main.js 187-224) up to the hand-over;
`selectionIsEmpty` is the answer of the editor's `selection.isEmpty()`. -/
def runSelection (prettierOptions : Obj) (configFile : Option Obj) (activeFileName code : Str)
    (selectionIsEmpty : Bool) (range : Range) (cursorPos : Position) : Option FormatRequest :=
  if selectionIsEmpty = true ∨
      (range.start.row = range.end_.row ∧ range.start.column = range.end_.column) then
    run prettierOptions configFile activeFileName code cursorPos
  else
    let parser := inferParser activeFileName
    let prettierOptions := configFile.getD prettierOptions
    let selection := getSelectionText range code
    some
      { code := selection.2
        cursorOptions :=
          ((Obj.assign
              (Obj.ofList
                [("parser".toList, .str parser), ("filepath".toList, .str activeFileName)])
              prettierOptions).set "rangeStart".toList (.num 0)).set "rangeEnd".toList .infinity
        isSelection := true
        selectionRange := some selection.1 }

/-- The options the formatting engine is called with: the `cursorOptions` of
the request with `plugins` added (worker.js 13; main.js 178 and 226). -/
def engineOptions (request : FormatRequest) : Obj :=
  request.cursorOptions.set "plugins".toList (.host "prettierPlugins".toList)

/-! ### Applying a result and the error log -/

/-- The result handed to `#setValueForSelection` and `#setValue`: a string
(from `prettier.format`) or an object `{ formatted, cursorOffset }` (from
`prettier.formatWithCursor`). -/
inductive FormatResult where
  | text (formatted : Str)
  | withCursor (formatted : Str) (cursorOffset : Nat)
deriving DecidableEq, Repr

/-- The call `s.endsWith(searchString)`. -/
def endsWith (s searchString : Str) : Bool := searchString.isSuffixOf s

/-- The call `s.slice(start, stop)`: a negative index counts from the end,
and both are clamped to the string. -/
def slice (s : Str) (start stop : Int) : Str :=
  let len : Int := s.length
  let lo := if start < 0 then max (len + start) 0 else min start len
  let hi := if stop < 0 then max (len + stop) 0 else min stop len
  (s.take hi.toNat).drop lo.toNat

/-- A call `session.replace(range, text)` on the editor session. -/
structure SessionEdit where
  range : Range
  text : Str
deriving DecidableEq, Repr

/-- An entry of the error log: the `div` built by `#showError`, with its
`data-file` attribute, the name of the file, the error message and the time
it shows. -/
structure LogEntry where
  file : Str
  fileName : Str
  message : Str
  time : Nat
deriving DecidableEq, Repr

/-- The method `#showError` (main.js 390-424) on the children of the log
page. `file` is the answer of `editorManager.getFile(fileId, 'id')`, the name
of the file when the editor holds one with that id. Building the entry reads
`file.name` (main.js 416), which throws when there is no such file: the
result is `none` and nothing has been prepended. Otherwise the new entry is
prepended, and the last child is removed when there are more than ten. -/
def showError (file : Option Str) (fileId message : Str) (now : Nat) (page : List LogEntry) :
    Option (List LogEntry) :=
  match file with
  | none => none
  | some fileName =>
    let page := (⟨fileId, fileName, message, now⟩ : LogEntry) :: page
    some (if page.length > 10 then page.dropLast else page)

/-- The method `#removeErrors` (main.js 441-445) on the children of the log
page: the entries whose `data-file` is `fileId` are collected, then removed
one by one. -/
def removeErrors (fileId : Str) (page : List LogEntry) : List LogEntry :=
  let errors := page.filter (fun entry => entry.file = fileId)
  errors.foldl (fun page error => page.erase error) page

/-- The method `removeErrorsByFile` (main.js 437-439), the handler of the
editor's `remove-file` event; `fileId` is `file.id`. -/
def removeErrorsByFile (fileId : Str) (page : List LogEntry) : List LogEntry :=
  removeErrors fileId page

/-- The method `#setValueForSelection` (main.js 365-383): the `replace` call
made on the session of the file, and the log page afterwards. -/
def setValueForSelection (fileId : Str) (formattedText : FormatResult) (selectionRange : Range)
    (page : List LogEntry) : SessionEdit × List LogEntry :=
  let formatted :=
    match formattedText with
    | .text s => s
    | .withCursor s _ => s
  let formatted := if endsWith formatted ['\n'] then slice formatted 0 (-1) else formatted
  (⟨selectionRange, formatted⟩, removeErrors fileId page)

/-- The method `#setValue` (main.js 345-363) on a file whose session holds
`document`: the `replace` call over the full range, the position the cursor
is moved to, and the log page afterwards. The position is computed by
`#cursorOffsetToCursorPos` on `editorValue`, the text that
`editorManager.editor.getValue()` returns after the replacement: the text of
the active editor, whichever file that shows. -/
def setValue (fileId document formatted editorValue : Str) (cursorOffset : Nat)
    (page : List LogEntry) : SessionEdit × Position × List LogEntry :=
  let lines := splitLines document
  let lastRow := lines.length - 1
  let lastColumn := (lines.getD lastRow []).length
  (⟨⟨⟨0, 0⟩, ⟨lastRow, lastColumn⟩⟩, formatted⟩,
   cursorOffsetToCursorPos editorValue cursorOffset,
   removeErrors fileId page)

/-- An operation on the error log: a call of `#showError`, with the answer
of the file lookup it makes, or a call of `#removeErrors`. -/
inductive LogOp where
  | record (file : Option Str) (fileId message : Str) (now : Nat)
  | clear (fileId : Str)
deriving DecidableEq, Repr

/-- One operation applied to the log page: `record` is `#showError`, `clear`
is `#removeErrors`. A call of `#showError` that throws leaves the page as it
was. -/
def applyLogOp (page : List LogEntry) : LogOp → List LogEntry
  | .record file fileId message now => (showError file fileId message now page).getD page
  | .clear fileId => removeErrors fileId page

/-- The times of the `record` operations of a sequence that build their
entry, in order. -/
def recordTimes : List LogOp → List Nat
  | [] => []
  | .record (some _) _ _ now :: ops => now :: recordTimes ops
  | .record none _ _ _ :: ops => recordTimes ops
  | .clear _ :: ops => recordTimes ops

/-! ## Lines of a text -/

theorem splitLines_ne_nil (text : Str) : splitLines text ≠ [] := by
  cases text with
  | nil => simp [splitLines]
  | cons c cs =>
    unfold splitLines
    split
    · simp
    · split <;> simp

theorem joinLines_cons_cons (l m : Str) (ls : List Str) :
    joinLines (l :: m :: ls) = l ++ '\n' :: joinLines (m :: ls) := rfl

theorem joinLines_cons_of_ne_nil (l : Str) (ls : List Str) (h : ls ≠ []) :
    joinLines (l :: ls) = l ++ '\n' :: joinLines ls := by
  cases ls with
  | nil => exact absurd rfl h
  | cons m ms => rfl

theorem joinLines_splitLines (text : Str) : joinLines (splitLines text) = text := by
  induction text with
  | nil => rfl
  | cons c cs ih =>
    unfold splitLines
    split
    · next hc =>
      rw [joinLines_cons_of_ne_nil _ _ (splitLines_ne_nil cs), ih, hc]
      rfl
    · split
      · next hnil => exact absurd hnil (splitLines_ne_nil cs)
      · next l ls hsplit =>
        rw [hsplit] at ih
        cases ls with
        | nil =>
          simp only [joinLines] at ih ⊢
          rw [ih]
        | cons m ms =>
          rw [joinLines_cons_cons] at ih ⊢
          rw [List.cons_append, ih]

theorem positionToOffsetLoop_eq (lines : List Str) (row column : Nat)
    (h : row ≤ lines.length) :
    positionToOffsetLoop lines row column
      = some (column + (linesWithNewlines (lines.take row)).length) := by
  induction lines generalizing row column with
  | nil =>
    have : row = 0 := by simpa using h
    subst this
    simp [positionToOffsetLoop, linesWithNewlines]
  | cons l ls ih =>
    cases row with
    | zero => simp [positionToOffsetLoop, linesWithNewlines]
    | succ r =>
      have hr : r ≤ ls.length := by simpa using h
      simp only [positionToOffsetLoop, ih r _ hr, List.take_succ_cons, linesWithNewlines,
        List.length_append, List.length_cons]
      congr 1
      omega

theorem joinLines_eq_prefix_append (lines : List Str) (row : Nat) (h : row < lines.length) :
    joinLines lines = linesWithNewlines (lines.take row) ++ joinLines (lines.drop row) := by
  induction lines generalizing row with
  | nil => simp at h
  | cons l ls ih =>
    cases row with
    | zero => simp [linesWithNewlines]
    | succ r =>
      have hr : r < ls.length := by simpa using h
      have hne : ls ≠ [] := by
        intro hnil
        simp [hnil] at hr
      rw [joinLines_cons_of_ne_nil _ _ hne, List.take_succ_cons, List.drop_succ_cons,
        linesWithNewlines, ih r hr]
      simp

theorem joinLines_drop_eq (lines : List Str) (row : Nat) (h : row < lines.length) :
    ∃ tail, joinLines (lines.drop row) = lines.getD row [] ++ tail := by
  have hd : lines.drop row = lines.getD row [] :: lines.drop (row + 1) := by
    rw [List.getD_eq_getElem _ _ h]
    exact List.drop_eq_getElem_cons h
  rw [hd]
  cases hrest : lines.drop (row + 1) with
  | nil => exact ⟨[], by simp [joinLines]⟩
  | cons m ms => exact ⟨'\n' :: joinLines (m :: ms), rfl⟩

theorem take_flat_index (lines : List Str) (row column : Nat) (h : row < lines.length)
    (hc : column ≤ (lines.getD row []).length) :
    (joinLines lines).take ((linesWithNewlines (lines.take row)).length + column)
      = linesWithNewlines (lines.take row) ++ (lines.getD row []).take column := by
  obtain ⟨tail, htail⟩ := joinLines_drop_eq lines row h
  rw [joinLines_eq_prefix_append lines row h, htail, List.take_append,
    List.take_append_of_le_length hc]

theorem flat_index_le_length (lines : List Str) (row column : Nat) (h : row < lines.length)
    (hc : column ≤ (lines.getD row []).length) :
    (linesWithNewlines (lines.take row)).length + column ≤ (joinLines lines).length := by
  obtain ⟨tail, htail⟩ := joinLines_drop_eq lines row h
  rw [joinLines_eq_prefix_append lines row h, htail]
  simp only [List.length_append]
  omega

/-! ## The offset scan -/

theorem cursorOffsetLoop_found (linesCount cursorOffset : Nat) (rest : List Str)
    (i column j c : Nat) (hcount : i + rest.length = linesCount) (hj : j < rest.length)
    (hc : c ≤ (rest.getD j []).length)
    (hend : j + 1 < rest.length ∨ c < (rest.getD j []).length)
    (hoff : cursorOffset = column + (linesWithNewlines (rest.take j)).length + c) :
    cursorOffsetLoop linesCount cursorOffset rest i column = ⟨i + j, c⟩ := by
  induction rest generalizing i column j with
  | nil => simp at hj
  | cons line rest ih =>
    cases j with
    | zero =>
      simp only [List.getD_cons_zero] at hc hend
      simp only [List.take_zero, linesWithNewlines, List.length_nil, Nat.add_zero] at hoff
      simp only [List.length_cons] at hcount hend
      have hcond : column + line.length + (if i ≠ linesCount - 1 then 1 else 0)
          > cursorOffset := by
        split <;> omega
      simp only [cursorOffsetLoop, if_pos hcond, Nat.add_zero, Position.mk.injEq, true_and]
      omega
    | succ j =>
      simp only [List.getD_cons_succ] at hc hend
      simp only [List.take_succ_cons, linesWithNewlines, List.length_append,
        List.length_cons] at hoff
      simp only [List.length_cons] at hcount hend hj
      have hcond : ¬ (column + line.length + (if i ≠ linesCount - 1 then 1 else 0)
          > cursorOffset) := by
        split <;> omega
      simp only [cursorOffsetLoop, if_neg hcond]
      rw [ih (i + 1) (column + line.length + 1) j (by omega) (by omega) hc
        (by omega) (by omega)]
      simp only [Position.mk.injEq, and_true]
      omega

theorem length_joinLines_le (lines : List Str) :
    (joinLines lines).length ≤ (linesWithNewlines lines).length := by
  induction lines with
  | nil => simp [joinLines, linesWithNewlines]
  | cons l ls ih =>
    cases ls with
    | nil => simp [joinLines, linesWithNewlines]
    | cons m ms =>
      rw [joinLines_cons_cons]
      simp only [linesWithNewlines, List.length_append, List.length_cons] at ih ⊢
      omega

theorem length_linesWithNewlines (lines : List Str) (h : lines ≠ []) :
    (linesWithNewlines lines).length = (joinLines lines).length + 1 := by
  induction lines with
  | nil => exact absurd rfl h
  | cons l ls ih =>
    cases ls with
    | nil => simp [joinLines, linesWithNewlines]
    | cons m ms =>
      rw [joinLines_cons_cons]
      have := ih (by simp)
      simp only [linesWithNewlines, List.length_append, List.length_cons] at this ⊢
      omega

theorem cursorOffsetLoop_scan (linesCount cursorOffset : Nat) (rest : List Str)
    (i column : Nat) (hcount : i + rest.length = linesCount) (hlo : column ≤ cursorOffset)
    (hhi : cursorOffset < column + (joinLines rest).length) :
    ∃ j c, cursorOffsetLoop linesCount cursorOffset rest i column = ⟨i + j, c⟩ ∧
      j < rest.length ∧ c ≤ (rest.getD j []).length ∧
      cursorOffset = column + (linesWithNewlines (rest.take j)).length + c := by
  induction rest generalizing i column with
  | nil =>
    simp only [joinLines, List.length_nil] at hhi
    omega
  | cons line rest ih =>
    simp only [List.length_cons] at hcount
    by_cases hcond : column + line.length + (if i ≠ linesCount - 1 then 1 else 0)
        > cursorOffset
    · refine ⟨0, cursorOffset - column, ?_, by simp, ?_, ?_⟩
      · rw [cursorOffsetLoop, if_pos hcond, Nat.add_zero]
      · simp only [List.getD_cons_zero]
        split at hcond <;> omega
      · simp only [List.take_zero, linesWithNewlines, List.length_nil]
        omega
    · cases rest with
      | nil =>
        simp only [joinLines] at hhi
        omega
      | cons m ms =>
        rw [joinLines_cons_cons] at hhi
        simp only [List.length_append, List.length_cons] at hhi hcount
        have hi : i ≠ linesCount - 1 := by omega
        simp only [hi, ne_eq, not_false_eq_true, if_true] at hcond
        obtain ⟨j, c, hloop, hj, hc, hoff⟩ :=
          ih (i + 1) (column + line.length + 1) (by simp only [List.length_cons]; omega)
            (by omega) (by omega)
        refine ⟨j + 1, c, ?_, by simpa using hj, by simpa using hc, ?_⟩
        · have hcond2 : ¬ (column + line.length + (if i ≠ linesCount - 1 then 1 else 0)
              > cursorOffset) := by
            simp only [hi, ne_eq, not_false_eq_true, if_true]
            exact hcond
          rw [cursorOffsetLoop, if_neg hcond2, hloop]
          simp only [Position.mk.injEq, and_true]
          omega
        · simp only [List.take_succ_cons, linesWithNewlines, List.length_append,
            List.length_cons]
          omega

/-- Away from the end of the document the backward translation undoes the
forward one: every valid position other than the end of the last line. -/
theorem cursorOffsetToCursorPos_positionToOffset (text : Str) (p : Position)
    (h : ValidPosition text p)
    (hend : p.row + 1 < (splitLines text).length ∨
      p.column < ((splitLines text).getD p.row []).length) :
    (positionToOffset text p).map (cursorOffsetToCursorPos text) = some p := by
  obtain ⟨hrow, hcol⟩ := h
  unfold positionToOffset
  rw [positionToOffsetLoop_eq _ _ _ (Nat.le_of_lt hrow)]
  simp only [Option.map_some', Option.some.injEq, cursorOffsetToCursorPos]
  rw [cursorOffsetLoop_found _ _ _ 0 0 p.row p.column (by simp) hrow hcol hend (by omega)]
  simp

/-- Below the length of the document the forward translation undoes the
backward one. -/
theorem positionToOffset_cursorOffsetToCursorPos (text : Str) (offset : Nat)
    (h : offset < text.length) :
    positionToOffset text (cursorOffsetToCursorPos text offset) = some offset := by
  have hlen : offset < 0 + (joinLines (splitLines text)).length := by
    rw [joinLines_splitLines]; omega
  obtain ⟨j, c, hloop, hj, _, hoff⟩ :=
    cursorOffsetLoop_scan (splitLines text).length offset (splitLines text) 0 0 (by simp)
      (Nat.zero_le _) hlen
  unfold positionToOffset cursorOffsetToCursorPos
  simp only [hloop, Nat.zero_add]
  rw [positionToOffsetLoop_eq _ _ _ (by omega)]
  simp only [Option.some.injEq]
  omega

/-- At or past the length of the document the scan selects no line: the
result is row 0 with the accumulated column. -/
theorem cursorOffsetLoop_saturates (linesCount cursorOffset : Nat) (rest : List Str)
    (i column : Nat) (hcount : i + rest.length = linesCount)
    (h : column + (joinLines rest).length ≤ cursorOffset) :
    cursorOffsetLoop linesCount cursorOffset rest i column
      = ⟨0, column + (linesWithNewlines rest).length⟩ := by
  induction rest generalizing i column with
  | nil => simp [cursorOffsetLoop, linesWithNewlines]
  | cons line rest ih =>
    simp only [List.length_cons] at hcount
    cases rest with
    | nil =>
      simp only [joinLines] at h
      have hcond : ¬ (column + line.length + (if i ≠ linesCount - 1 then 1 else 0)
          > cursorOffset) := by
        have hi : i = linesCount - 1 := by
          simp only [List.length_nil] at hcount
          omega
        rw [if_neg (by simpa using hi)]
        omega
      rw [cursorOffsetLoop, if_neg hcond, cursorOffsetLoop]
      simp only [linesWithNewlines, List.length_append, List.length_cons, List.length_nil,
        Position.mk.injEq, true_and]
      omega
    | cons m ms =>
      rw [joinLines_cons_cons] at h
      simp only [List.length_append, List.length_cons] at h
      have hcond : ¬ (column + line.length + (if i ≠ linesCount - 1 then 1 else 0)
          > cursorOffset) := by
        split <;> omega
      rw [cursorOffsetLoop, if_neg hcond,
        ih (i + 1) (column + line.length + 1) (by simp only [List.length_cons] at hcount ⊢; omega)
          (by omega)]
      simp only [linesWithNewlines, List.length_append, List.length_cons, Position.mk.injEq,
        true_and]
      omega

/-! ## Parser inference -/

theorem lastIndexOf_of_not_mem (c : Char) (s : Str) (h : c ∉ s) : lastIndexOf c s = -1 := by
  induction s with
  | nil => rfl
  | cons x xs ih =>
    simp only [List.mem_cons, not_or] at h
    have hx : ¬ x = c := fun e => h.1 e.symm
    simp [lastIndexOf, ih h.2, hx]

theorem lastIndexOf_append (c : Char) (pre ext : Str) (h : c ∉ ext) :
    lastIndexOf c (pre ++ c :: ext) = pre.length := by
  induction pre with
  | nil => simp [lastIndexOf, lastIndexOf_of_not_mem c ext h]
  | cons x xs ih =>
    simp only [List.cons_append, lastIndexOf, ih, List.length_cons]
    simp
    omega

theorem sliceFrom_after_dot (pre ext : Str) (h : '.' ∉ ext) :
    sliceFrom (pre ++ '.' :: ext) (lastIndexOf '.' (pre ++ '.' :: ext) + 1) = ext := by
  rw [lastIndexOf_append _ _ _ h]
  have h1 : ¬ ((pre.length : Int) + 1 < 0) := by omega
  have h2 : ((pre.length : Int) + 1).toNat = pre.length + 1 := by omega
  rw [sliceFrom, if_neg h1, h2]
  simp

theorem sliceFrom_no_dot (s : Str) (h : '.' ∉ s) :
    sliceFrom s (lastIndexOf '.' s + 1) = s := by
  rw [lastIndexOf_of_not_mem _ _ h]
  simp [sliceFrom]

theorem inferParser_eq_tableImage (filename : Str) :
    inferParser filename = tableImage (sliceFrom filename (lastIndexOf '.' filename + 1)) := by
  simp only [inferParser]
  generalize sliceFrom filename (lastIndexOf '.' filename + 1) = ext
  by_cases h1 : ext = "html".toList
  · subst h1; decide
  by_cases h2 : ext = "htm".toList
  · subst h2; decide
  by_cases h3 : ext = "js".toList
  · subst h3; decide
  by_cases h4 : ext = "cjs".toList
  · subst h4; decide
  by_cases h5 : ext = "es".toList
  · subst h5; decide
  by_cases h6 : ext = "mjs".toList
  · subst h6; decide
  by_cases h7 : ext = "jsx".toList
  · subst h7; decide
  by_cases h8 : ext = "ts".toList
  · subst h8; decide
  by_cases h9 : ext = "tsx".toList
  · subst h9; decide
  by_cases h10 : ext = "hbs".toList
  · subst h10; decide
  by_cases h11 : ext = "handlebars".toList
  · subst h11; decide
  by_cases h12 : ext = "md".toList
  · subst h12; decide
  by_cases h13 : ext = "yaml".toList
  · subst h13; decide
  by_cases h14 : ext = "yml".toList
  · subst h14; decide
  have e1 := Ne.symm h1
  have e2 := Ne.symm h2
  have e3 := Ne.symm h3
  have e4 := Ne.symm h4
  have e5 := Ne.symm h5
  have e6 := Ne.symm h6
  have e7 := Ne.symm h7
  have e8 := Ne.symm h8
  have e9 := Ne.symm h9
  have e10 := Ne.symm h10
  have e11 := Ne.symm h11
  have e12 := Ne.symm h12
  have e13 := Ne.symm h13
  have e14 := Ne.symm h14
  simp only [tableImage, extensionTable, List.find?, h1, h2, h3, h4, h5, h6, h7, h8, h9, h10,
    h11, h12, h13, h14, e1, e2, e3, e4, e5, e6, e7, e8, e9, e10, e11, e12, e13, e14, or_self,
    if_false, decide_False, ne_eq, not_false_eq_true, Option.map_none', Option.getD_none]
theorem last_dot_cases (s : Str) :
    '.' ∉ s ∨ ∃ pre ext, s = pre ++ '.' :: ext ∧ '.' ∉ ext := by
  induction s with
  | nil => exact Or.inl (by simp)
  | cons x xs ih =>
    rcases ih with hno | ⟨pre, ext, hs, hext⟩
    · by_cases hx : x = '.'
      · exact Or.inr ⟨[], xs, by simp [hx], hno⟩
      · refine Or.inl ?_
        simp only [List.mem_cons, not_or]
        exact ⟨fun e => hx e.symm, hno⟩
    · exact Or.inr ⟨x :: pre, ext, by simp [hs], hext⟩

/-! ## Config resolution -/

theorem settle_length {α : Type} (values : List α) (slots : List (Option α)) (i : Nat) :
    (settle values slots i).length = slots.length := by
  unfold settle
  split <;> simp

theorem foldl_settle_length {α : Type} (values : List α) (order : List Nat)
    (slots : List (Option α)) :
    (order.foldl (settle values) slots).length = slots.length := by
  induction order generalizing slots with
  | nil => rfl
  | cons j rest ih => rw [List.foldl_cons, ih, settle_length]

theorem foldl_settle_getElem? {α : Type} (values : List α) (order : List Nat)
    (slots : List (Option α)) (i : Nat) (v : α) (hlen : slots.length = values.length)
    (hv : values[i]? = some v) (h : i ∈ order ∨ slots[i]? = some (some v)) :
    (order.foldl (settle values) slots)[i]? = some (some v) := by
  induction order generalizing slots with
  | nil =>
    rcases h with h | h
    · simp at h
    · exact h
  | cons j rest ih =>
    rw [List.foldl_cons]
    have hi : i < values.length := by
      rcases List.getElem?_eq_some_iff.mp hv with ⟨hlt, _⟩
      exact hlt
    apply ih _ (by rw [settle_length, hlen])
    by_cases hij : j = i
    · right
      subst hij
      simp only [settle, hv]
      rw [List.getElem?_set_self]
      simp [hlen, hi]
    · rcases h with h | h
      · left
        rcases List.mem_cons.mp h with h | h
        · exact absurd h.symm hij
        · exact h
      · right
        unfold settle
        split
        · rw [List.getElem?_set_ne hij]
          exact h
        · exact h

theorem promiseAll_eq {α : Type} (values : List α) (order : List Nat)
    (h : ∀ i, i < values.length → i ∈ order) : promiseAll values order = some values := by
  have hslots : order.foldl (settle values) (List.replicate values.length none)
      = values.map some := by
    apply List.ext_getElem?
    intro i
    by_cases hi : i < values.length
    · have hv : values[i]? = some (values[i]) := List.getElem?_eq_getElem hi
      rw [foldl_settle_getElem? values order _ i _ (by simp) hv (Or.inl (h i hi))]
      simp [hv]
    · have h1 : values.length ≤ i := Nat.le_of_not_lt hi
      rw [List.getElem?_eq_none (by rw [foldl_settle_length]; simpa using h1)]
      simp [List.getElem?_eq_none h1]
  unfold promiseAll
  simp only [hslots]
  have hall : (values.map some).all Option.isSome = true := by
    simp [List.all_eq_true]
  rw [if_pos hall]
  simp [List.filterMap_map]

theorem find_truthy_probe (join : Str → Str → Str) (fileExists : Str → Bool) (root : Str)
    (names : List Str) (hjoin : ∀ name ∈ names, join root name ≠ []) :
    ((names.map (probe join fileExists root)).find? truthy).join
      = (names.find? (fun name => fileExists (join root name))).map (join root) := by
  induction names with
  | nil => rfl
  | cons name rest ih =>
    have hrest : ∀ n ∈ rest, join root n ≠ [] := fun n hn => hjoin n (List.mem_cons_of_mem _ hn)
    have hname : join root name ≠ [] := hjoin name (List.mem_cons_self _ _)
    rw [List.map_cons]
    cases hex : fileExists (join root name) with
    | true =>
      have ht : truthy (probe join fileExists root name) = true := by
        simp only [probe, hex, if_true]
        cases hj : join root name with
        | nil => exact absurd hj hname
        | cons c cs => rfl
      rw [List.find?_cons_of_pos _ ht, List.find?_cons_of_pos _ (by exact hex)]
      simp [probe, hex]
    | false =>
      have ht : truthy (probe join fileExists root name) = false := by
        simp [probe, hex, truthy]
      rw [List.find?_cons_of_neg _ (by simp [ht]),
        List.find?_cons_of_neg _ (by simp [hex])]
      exact ih hrest

theorem find?_append_of_none (p : Str → Bool) (earlier : List Str) (name : Str)
    (later : List Str) (hearlier : ∀ other ∈ earlier, p other = false) (hname : p name = true) :
    (earlier ++ name :: later).find? p = some name := by
  induction earlier with
  | nil => exact List.find?_cons_of_pos _ hname
  | cons other rest ih =>
    rw [List.cons_append,
      List.find?_cons_of_neg _ (by simp [hearlier other (List.mem_cons_self _ _)])]
    exact ih (fun o ho => hearlier o (List.mem_cons_of_mem _ ho))

/-! ## Option records -/

theorem Obj.mem_keys_set (o : Obj) (key : Str) (value : Value) (k : Str) :
    k ∈ (o.set key value).keys ↔ k = key ∨ k ∈ o.keys := by
  unfold Obj.set
  by_cases h : key ∈ o.keys
  · simp only [if_pos h]
    constructor
    · exact Or.inr
    · rintro (rfl | hk)
      · exact h
      · exact hk
  · simp only [if_neg h, List.mem_append, List.mem_singleton]
    exact Or.comm

theorem Obj.get_set (o : Obj) (key : Str) (value : Value) (k : Str) :
    (o.set key value).get k = if k = key then value else o.get k := by
  unfold Obj.get
  by_cases hk : k = key
  · rw [if_pos ((Obj.mem_keys_set o key value k).mpr (Or.inl hk)), if_pos hk]
    simp [Obj.set, hk]
  · rw [if_neg hk]
    have hiff : k ∈ (o.set key value).keys ↔ k ∈ o.keys := by
      rw [Obj.mem_keys_set]
      exact ⟨fun h => h.resolve_left hk, Or.inr⟩
    by_cases hm : k ∈ o.keys
    · rw [if_pos (hiff.mpr hm), if_pos hm]
      simp [Obj.set, hk]
    · rw [if_neg (fun h => hm (hiff.mp h)), if_neg hm]

theorem Obj.mem_keys_foldl_set (f : Str → Value) (l : List Str) (target : Obj) (k : Str) :
    k ∈ (l.foldl (fun o key => o.set key (f key)) target).keys ↔ k ∈ target.keys ∨ k ∈ l := by
  induction l generalizing target with
  | nil => simp
  | cons key rest ih =>
    rw [List.foldl_cons, ih, Obj.mem_keys_set, List.mem_cons]
    constructor
    · rintro ((h | h) | h)
      · exact Or.inr (Or.inl h)
      · exact Or.inl h
      · exact Or.inr (Or.inr h)
    · rintro (h | h | h)
      · exact Or.inl (Or.inr h)
      · exact Or.inl (Or.inl h)
      · exact Or.inr h

theorem Obj.get_foldl_set (f : Str → Value) (l : List Str) (target : Obj) (k : Str) :
    (l.foldl (fun o key => o.set key (f key)) target).get k
      = if k ∈ l then f k else target.get k := by
  induction l generalizing target with
  | nil => simp
  | cons key rest ih =>
    rw [List.foldl_cons, ih, Obj.get_set]
    by_cases hr : k ∈ rest
    · rw [if_pos hr, if_pos (List.mem_cons_of_mem _ hr)]
    · rw [if_neg hr]
      by_cases hk : k = key
      · rw [if_pos hk, if_pos (by rw [hk]; exact List.mem_cons_self _ _), hk]
      · rw [if_neg hk, if_neg (by simp [hk, hr])]

theorem Obj.mem_keys_assign (target source : Obj) (k : Str) :
    k ∈ (Obj.assign target source).keys ↔ k ∈ target.keys ∨ k ∈ source.keys :=
  Obj.mem_keys_foldl_set source.get source.keys target k

theorem Obj.get_assign (target source : Obj) (k : Str) :
    (Obj.assign target source).get k
      = if k ∈ source.keys then source.get k else target.get k :=
  Obj.get_foldl_set source.get source.keys target k

theorem constructorOptions_hasKey (prettierSettings : Option Obj) :
    "openErrorPageOnErrors".toList ∈ (constructorOptions prettierSettings).keys := by
  have hdefault : "openErrorPageOnErrors".toList ∈ defaultPrettierOptions.keys := by decide
  unfold constructorOptions
  split
  · exact hdefault
  · split
    · exact hdefault
    · rw [Obj.mem_keys_set, Obj.mem_keys_assign]
      exact Or.inr (Or.inl hdefault)

theorem onSettingsChange_hasKey (changes : List (Str × Value)) (prettierOptions : Obj)
    (k : Str) (h : k ∈ prettierOptions.keys) :
    k ∈ (changes.foldl (fun o kv => onSettingsChange o kv.1 kv.2) prettierOptions).keys := by
  induction changes generalizing prettierOptions with
  | nil => exact h
  | cons kv rest ih =>
    rw [List.foldl_cons]
    apply ih
    rw [onSettingsChange, Obj.mem_keys_set]
    exact Or.inr h

theorem run_eq (prettierOptions : Obj) (configFile : Option Obj) (activeFileName code : Str)
    (cursorPos : Position) (request : FormatRequest)
    (h : run prettierOptions configFile activeFileName code cursorPos = some request) :
    ∃ cursorOffset, positionToOffset code cursorPos = some cursorOffset ∧
      request.cursorOptions = Obj.assign
        (Obj.ofList
          [("parser".toList, .str (inferParser activeFileName)),
           ("cursorOffset".toList, .num cursorOffset),
           ("filepath".toList, .str activeFileName)])
        (configFile.getD prettierOptions) := by
  unfold run at h
  cases hoff : positionToOffset code cursorPos with
  | none => simp [hoff] at h
  | some cursorOffset =>
    simp only [hoff, Option.some.injEq] at h
    exact ⟨cursorOffset, rfl, by rw [← h]⟩

theorem run_mem_keys (prettierOptions : Obj) (configFile : Option Obj)
    (activeFileName code : Str) (cursorPos : Position) (request : FormatRequest)
    (h : run prettierOptions configFile activeFileName code cursorPos = some request)
    (k : Str) :
    k ∈ request.cursorOptions.keys ↔
      k ∈ ["parser".toList, "cursorOffset".toList, "filepath".toList] ∨
        k ∈ (configFile.getD prettierOptions).keys := by
  obtain ⟨cursorOffset, _, hopts⟩ := run_eq _ _ _ _ _ _ h
  rw [hopts, Obj.mem_keys_assign]
  rfl

theorem runSelection_mem_keys (prettierOptions : Obj) (configFile : Option Obj)
    (activeFileName code : Str) (selectionIsEmpty : Bool) (range : Range)
    (cursorPos : Position) (request : FormatRequest)
    (h : runSelection prettierOptions configFile activeFileName code selectionIsEmpty range
      cursorPos = some request)
    (k : Str) :
    (k ∈ (configFile.getD prettierOptions).keys → k ∈ request.cursorOptions.keys) ∧
    (k ∈ request.cursorOptions.keys →
      k ∈ ["parser".toList, "cursorOffset".toList, "filepath".toList, "rangeStart".toList,
        "rangeEnd".toList] ∨ k ∈ (configFile.getD prettierOptions).keys) := by
  unfold runSelection at h
  split at h
  · have hrun := run_mem_keys _ _ _ _ _ _ h k
    refine ⟨fun hk => hrun.mpr (Or.inr hk), fun hk => ?_⟩
    rcases hrun.mp hk with hk | hk
    · left
      simp only [List.mem_cons] at hk ⊢
      tauto
    · exact Or.inr hk
  · simp only [Option.some.injEq] at h
    rw [← h]
    simp only [Obj.mem_keys_set, Obj.mem_keys_assign]
    refine ⟨fun hk => Or.inr (Or.inr (Or.inr hk)), ?_⟩
    rintro (hk | hk | hk | hk)
    · exact Or.inl (by simp [hk])
    · exact Or.inl (by simp [hk])
    · left
      have : k ∈ ["parser".toList, "filepath".toList] := hk
      simp only [List.mem_cons] at this ⊢
      tauto
    · exact Or.inr hk

/-! ## Selection -/

theorem joinLines_take_succ (lines : List Str) (row : Nat) (h : row < lines.length) :
    joinLines (lines.take (row + 1))
      = linesWithNewlines (lines.take row) ++ lines.getD row [] := by
  induction lines generalizing row with
  | nil => simp at h
  | cons l ls ih =>
    cases row with
    | zero => simp [joinLines, linesWithNewlines]
    | succ r =>
      have hr : r < ls.length := by simpa using h
      have hne : ls.take (r + 1) ≠ [] := by
        cases ls with
        | nil => simp at hr
        | cons m ms => simp
      rw [List.take_succ_cons, joinLines_cons_of_ne_nil _ _ hne, ih r hr, List.take_succ_cons,
        linesWithNewlines, List.getD_cons_succ]
      simp

theorem joinLines_take_succ_eq (lines : List Str) (startRow endRow : Nat)
    (hrows : startRow ≤ endRow) (h : endRow < lines.length) :
    joinLines (lines.take (endRow + 1))
      = linesWithNewlines (lines.take startRow)
        ++ joinLines ((lines.take (endRow + 1)).drop startRow) := by
  have hlen : startRow < (lines.take (endRow + 1)).length := by
    rw [List.length_take]
    omega
  have htake : (lines.take (endRow + 1)).take startRow = lines.take startRow := by
    rw [List.take_take, Nat.min_eq_left (by omega)]
  rw [joinLines_eq_prefix_append _ startRow hlen, htake]

theorem slice_whole_lines (lines : List Str) (startRow endRow : Nat)
    (hrows : startRow ≤ endRow) (h : endRow < lines.length) :
    ((joinLines lines).drop (linesWithNewlines (lines.take startRow)).length).take
        ((lines.getD endRow []).length + (linesWithNewlines (lines.take endRow)).length
          - (linesWithNewlines (lines.take startRow)).length)
      = joinLines ((lines.take (endRow + 1)).drop startRow) := by
  have htake := take_flat_index lines endRow (lines.getD endRow []).length h (Nat.le_refl _)
  rw [List.take_length, ← joinLines_take_succ lines endRow h,
    joinLines_take_succ_eq lines startRow endRow hrows h] at htake
  rw [← List.drop_take, Nat.add_comm, htake, List.drop_left]

/-! ## Applying a result -/

theorem endsWith_newline_iff (s : Str) :
    endsWith s ['\n'] = true ↔ s.getLast? = some '\n' := by
  unfold endsWith
  rw [List.isSuffixOf_iff_suffix]
  constructor
  · rintro ⟨t, rfl⟩
    simp
  · intro h
    obtain ⟨t, ht⟩ := List.getLast?_eq_some_iff.mp h
    exact ⟨t, ht.symm⟩

theorem slice_zero_neg_one (s : Str) : slice s 0 (-1) = s.dropLast := by
  have hhi : (max ((s.length : Int) + -1) 0).toNat = s.length - 1 := by omega
  have hlo : (min (0 : Int) (s.length : Int)).toNat = 0 := by omega
  simp only [slice, Int.lt_irrefl, if_false, show ((-1 : Int) < 0) from by decide, if_true,
    hhi, hlo, List.drop_zero]
  exact (List.dropLast_eq_take s).symm

/-! ## The error log -/

theorem foldl_erase_cons_of_ne (errors page : List LogEntry) (entry : LogEntry)
    (h : ∀ error ∈ errors, error ≠ entry) :
    errors.foldl (fun page error => page.erase error) (entry :: page)
      = entry :: errors.foldl (fun page error => page.erase error) page := by
  induction errors generalizing page with
  | nil => rfl
  | cons error rest ih =>
    have hne : error ≠ entry := h error (List.mem_cons_self _ _)
    rw [List.foldl_cons, List.foldl_cons, List.erase_cons_tail (by simpa using hne.symm)]
    exact ih _ (fun e he => h e (List.mem_cons_of_mem _ he))

theorem removeErrors_eq_filter (fileId : Str) (page : List LogEntry) :
    removeErrors fileId page = page.filter (fun entry => entry.file ≠ fileId) := by
  unfold removeErrors
  induction page with
  | nil => rfl
  | cons entry rest ih =>
    by_cases h : entry.file = fileId
    · rw [List.filter_cons_of_pos (by simpa using h), List.foldl_cons,
        List.erase_cons_head, List.filter_cons_of_neg (by simpa using h)]
      exact ih
    · rw [List.filter_cons_of_neg (by simpa using h),
        List.filter_cons_of_pos (by simpa using h), foldl_erase_cons_of_ne]
      · rw [ih]
      · intro error herror heq
        have hfile : error.file = fileId := by simpa using (List.mem_filter.mp herror).2
        exact h (heq ▸ hfile)

theorem showError_some (fileName fileId message : Str) (now : Nat) (page : List LogEntry) :
    showError (some fileName) fileId message now page
      = some (if ((⟨fileId, fileName, message, now⟩ : LogEntry) :: page).length > 10
          then ((⟨fileId, fileName, message, now⟩ : LogEntry) :: page).dropLast
          else (⟨fileId, fileName, message, now⟩ : LogEntry) :: page) := rfl

/-- A call of `#showError` for a file the editor does not hold throws before
the prepend: no entry is inserted and none is removed. -/
theorem showError_none (fileId message : Str) (now : Nat) (page : List LogEntry) :
    showError none fileId message now page = none ∧
    applyLogOp page (.record none fileId message now) = page :=
  ⟨rfl, rfl⟩

theorem applyLogOp_record_sublist (file : Option Str) (fileId message : Str) (now : Nat)
    (page : List LogEntry) :
    (applyLogOp page (.record file fileId message now)).Sublist
      (match file with
       | some fileName => (⟨fileId, fileName, message, now⟩ : LogEntry) :: page
       | none => page) := by
  cases file with
  | none => exact List.Sublist.refl _
  | some fileName =>
    simp only [applyLogOp, showError_some, Option.getD_some]
    split
    · exact List.dropLast_sublist _
    · exact List.Sublist.refl _

theorem length_applyLogOp_record_le (file : Option Str) (fileId message : Str) (now : Nat)
    (page : List LogEntry) (h : page.length ≤ 10) :
    (applyLogOp page (.record file fileId message now)).length ≤ 10 := by
  cases file with
  | none => exact h
  | some fileName =>
    simp only [applyLogOp, showError_some, Option.getD_some]
    split
    · rw [List.length_dropLast, List.length_cons]
      omega
    · next hle =>
      rw [List.length_cons] at hle ⊢
      omega

theorem length_removeErrors_le (fileId : Str) (page : List LogEntry) :
    (removeErrors fileId page).length ≤ page.length := by
  rw [removeErrors_eq_filter]
  exact List.length_filter_le _ _

theorem length_foldl_applyLogOp_le (ops : List LogOp) (page : List LogEntry)
    (h : page.length ≤ 10) : (ops.foldl applyLogOp page).length ≤ 10 := by
  induction ops generalizing page with
  | nil => exact h
  | cons op rest ih =>
    rw [List.foldl_cons]
    apply ih
    cases op with
    | record file fileId message now => exact length_applyLogOp_record_le _ _ _ _ _ h
    | clear fileId => exact Nat.le_trans (length_removeErrors_le _ _) h

theorem newest_first_foldl (ops : List LogOp) (page : List LogEntry)
    (hpage : (page.map LogEntry.time).Pairwise (fun a b => a > b))
    (hops : (recordTimes ops).Pairwise (fun a b => a < b))
    (hlater : ∀ entry ∈ page, ∀ now ∈ recordTimes ops, entry.time < now) :
    ((ops.foldl applyLogOp page).map LogEntry.time).Pairwise (fun a b => a > b) := by
  induction ops generalizing page with
  | nil => exact hpage
  | cons op rest ih =>
    rw [List.foldl_cons]
    cases op with
    | record file fileId message now =>
      cases file with
      | none =>
        simp only [recordTimes] at hops hlater
        exact ih page hpage hops hlater
      | some fileName =>
        simp only [recordTimes, List.pairwise_cons] at hops
        have hsub := applyLogOp_record_sublist (some fileName) fileId message now page
        simp only at hsub
        apply ih
        · refine List.Pairwise.sublist (hsub.map LogEntry.time) ?_
          rw [List.map_cons, List.pairwise_cons]
          refine ⟨?_, hpage⟩
          intro t ht
          obtain ⟨entry, hentry, rfl⟩ := List.mem_map.mp ht
          exact hlater entry hentry now (by simp [recordTimes])
        · exact hops.2
        · intro entry hentry later hlaterMem
          rcases List.mem_cons.mp (hsub.subset hentry) with rfl | hold
          · exact hops.1 later hlaterMem
          · exact hlater entry hold later (by simp [recordTimes, hlaterMem])
    | clear fileId =>
      simp only [recordTimes] at hops hlater
      have hsub : (removeErrors fileId page).Sublist page := by
        rw [removeErrors_eq_filter]
        exact List.filter_sublist _
      apply ih
      · exact List.Pairwise.sublist (hsub.map LogEntry.time) hpage
      · exact hops
      · intro entry hentry
        exact hlater entry (hsub.subset hentry)

theorem length_linesWithNewlines_take_succ (lines : List Str) (row : Nat)
    (h : row < lines.length) :
    (linesWithNewlines (lines.take (row + 1))).length
      = (linesWithNewlines (lines.take row)).length + (lines.getD row []).length + 1 := by
  have hne : lines.take (row + 1) ≠ [] := by
    cases lines with
    | nil => simp at h
    | cons l ls => simp
  rw [length_linesWithNewlines _ hne, joinLines_take_succ lines row h, List.length_append]

/-! ## Claims -/

/-- C1: the round trip position -> offset -> position fails at the end of
the document. In the empty document the valid position (0,0) comes back as
(0,1); in the text "a\nbb" the valid position (1,2), the end of the last
line, comes back as (0,5). -/
theorem roundtrip_position_fails_at_document_end :
    ValidPosition [] ⟨0, 0⟩ ∧
    (positionToOffset [] ⟨0, 0⟩).map (cursorOffsetToCursorPos []) = some ⟨0, 1⟩ ∧
    ValidPosition "a\nbb".toList ⟨1, 2⟩ ∧
    (positionToOffset "a\nbb".toList ⟨1, 2⟩).map (cursorOffsetToCursorPos "a\nbb".toList)
      = some ⟨0, 5⟩ := by
  decide

/-- C2: the round trip offset -> position -> offset fails at the offset equal
to the length of the text: in "ab" the offset 2 comes back as 3, and in the
empty text the offset 0 comes back as 1. -/
theorem roundtrip_offset_fails_at_text_length :
    cursorOffsetToCursorPos "ab".toList 2 = ⟨0, 3⟩ ∧
    positionToOffset "ab".toList (cursorOffsetToCursorPos "ab".toList 2) = some 3 ∧
    positionToOffset [] (cursorOffsetToCursorPos [] 0) = some 1 := by
  decide


/-- C3: for a valid position of a text, `positionToOffset` returns a flat
character index: the prefix of the text of that length is the first `row`
lines, each followed by one newline, then the first `column` characters of
line `row`; the index is at most the length of the text. -/
theorem positionToOffset_flat_index (text : Str) (p : Position) (h : ValidPosition text p) :
    ∃ offset, positionToOffset text p = some offset ∧
      text.take offset = linesWithNewlines ((splitLines text).take p.row)
        ++ ((splitLines text).getD p.row []).take p.column ∧
      offset ≤ text.length := by
  obtain ⟨hrow, hcol⟩ := h
  refine ⟨p.column + (linesWithNewlines ((splitLines text).take p.row)).length,
    positionToOffsetLoop_eq _ _ _ (Nat.le_of_lt hrow), ?_, ?_⟩
  · have := take_flat_index (splitLines text) p.row p.column hrow hcol
    rw [joinLines_splitLines] at this
    rw [Nat.add_comm]
    exact this
  · have := flat_index_le_length (splitLines text) p.row p.column hrow hcol
    rw [joinLines_splitLines] at this
    omega

theorem positionToOffset_flat_index_witness :
    ValidPosition "a\nbb\nccc".toList ⟨2, 1⟩ ∧
    ∃ offset, positionToOffset "a\nbb\nccc".toList ⟨2, 1⟩ = some offset ∧
      "a\nbb\nccc".toList.take offset
        = linesWithNewlines ((splitLines "a\nbb\nccc".toList).take 2)
          ++ ((splitLines "a\nbb\nccc".toList).getD 2 []).take 1 ∧
      offset ≤ "a\nbb\nccc".toList.length :=
  ⟨by decide, positionToOffset_flat_index "a\nbb\nccc".toList ⟨2, 1⟩ (by decide)⟩

/-- C4: for every filename `inferParser` returns the table image of the
substring after the last "." (of the whole name when it has no "."): the
entry of the extension table, or the extension unchanged when the table has
no entry. It is a total function, so no input raises an error. "a.tsx" gives
"typescript", "a.mjs" gives "babel", "a.unknownext" gives "unknownext". -/
theorem inferParser_table_image (filename : Str) :
    (∃ ext, inferParser filename = tableImage ext ∧
      ((∃ pre, filename = pre ++ '.' :: ext ∧ '.' ∉ ext) ∨ ('.' ∉ filename ∧ ext = filename))) ∧
    (∀ ext, ext ∉ extensionTable.map Prod.fst → tableImage ext = ext) ∧
    inferParser "a.tsx".toList = "typescript".toList ∧
    inferParser "a.mjs".toList = "babel".toList ∧
    inferParser "a.unknownext".toList = "unknownext".toList := by
  refine ⟨?_, ?_, by decide, by decide, by decide⟩
  · rcases last_dot_cases filename with hno | ⟨pre, ext, hs, hext⟩
    · exact ⟨filename, by rw [inferParser_eq_tableImage, sliceFrom_no_dot _ hno], Or.inr ⟨hno, rfl⟩⟩
    · refine ⟨ext, ?_, Or.inl ⟨pre, hs, hext⟩⟩
      rw [inferParser_eq_tableImage, hs, sliceFrom_after_dot _ _ hext]
  · intro ext hext
    have hnone : extensionTable.find? (fun e => e.1 = ext) = none := by
      rw [List.find?_eq_none]
      intro e he hk
      exact hext (List.mem_map.mpr ⟨e, he, by simpa using hk⟩)
    simp [tableImage, hnone]

/-- C6: the probed filenames are the eleven names of the claim in its order
(`priority`), and whatever the order in which the eleven existence checks
complete, the selected config file is the first name of that order whose file
exists: a name is selected when its file exists and the file of no earlier
name does. Nothing is selected when none exists; `.prettierrc` is selected
whenever it exists, so also when `.prettierrc.json` exists too, and
`.prettierrc.json` is selected when it exists and `.prettierrc` does not. -/
theorem selectConfigFile_first_existing (join : Str → Str → Str) (fileExists : Str → Bool)
    (root : Str) (settleOrder : List Nat)
    (hperm : settleOrder.Perm (List.range 11))
    (hjoin : ∀ name ∈ configFilenames, join root name ≠ []) :
    ∃ priority : List Str,
      priority = [".prettierrc".toList, ".prettierrc.json".toList, ".prettierrc.yaml".toList,
         ".prettierrc.yml".toList, ".prettierrc.toml".toList, ".prettierrc.js".toList,
         ".prettier.config.js".toList, ".prettierrc.mjs".toList,
         ".prettierrc.config.mjs".toList, ".prettierrc.cjs".toList,
         ".prettierrc.config.cjs".toList] ∧
      configFilenames = priority ∧
      selectConfigFile join fileExists root settleOrder
        = some ((priority.find? (fun name => fileExists (join root name))).map (join root)) ∧
      (∀ earlier name later, priority = earlier ++ name :: later →
        (∀ other ∈ earlier, fileExists (join root other) = false) →
        fileExists (join root name) = true →
        selectConfigFile join fileExists root settleOrder = some (some (join root name))) ∧
      ((∀ name ∈ priority, fileExists (join root name) = false) →
        selectConfigFile join fileExists root settleOrder = some none) ∧
      (fileExists (join root ".prettierrc".toList) = true →
        selectConfigFile join fileExists root settleOrder
          = some (some (join root ".prettierrc".toList))) ∧
      (fileExists (join root ".prettierrc".toList) = false →
        fileExists (join root ".prettierrc.json".toList) = true →
        selectConfigFile join fileExists root settleOrder
          = some (some (join root ".prettierrc.json".toList))) := by
  have hsel : selectConfigFile join fileExists root settleOrder
      = some ((configFilenames.find? (fun name => fileExists (join root name))).map
          (join root)) := by
    unfold selectConfigFile
    rw [promiseAll_eq _ _ (fun i hi => hperm.mem_iff.mpr (by
      have hlen : (configFilenames.map (probe join fileExists root)).length = 11 := rfl
      rw [hlen] at hi
      simpa using hi))]
    rw [Option.map_some', find_truthy_probe join fileExists root configFilenames hjoin]
  have hsplit : ∀ earlier name later, configFilenames = earlier ++ name :: later →
      (∀ other ∈ earlier, fileExists (join root other) = false) →
      fileExists (join root name) = true →
      selectConfigFile join fileExists root settleOrder = some (some (join root name)) := by
    intro earlier name later hnames hearlier hname
    rw [hsel, hnames, find?_append_of_none _ _ _ _ hearlier hname]
    rfl
  refine ⟨configFilenames, rfl, rfl, hsel, hsplit, ?_, ?_, ?_⟩
  · intro hnone
    rw [hsel]
    have : configFilenames.find? (fun name => fileExists (join root name)) = none := by
      rw [List.find?_eq_none]
      intro name hname
      simp [hnone name hname]
    rw [this]
    rfl
  · intro hfirst
    exact hsplit [] ".prettierrc".toList configFilenames.tail rfl (by simp) hfirst
  · intro hfirst hsecond
    refine hsplit [".prettierrc".toList] ".prettierrc.json".toList
      (configFilenames.tail.tail) rfl ?_ hsecond
    intro other hother
    rw [List.mem_singleton.mp hother]
    exact hfirst

theorem selectConfigFile_first_existing_witness :
    selectConfigFile (fun r n => r ++ '/' :: n)
        (fun p => p = "/p/.prettierrc".toList ∨ p = "/p/.prettierrc.json".toList)
        "/p".toList [10, 3, 0, 7, 1, 9, 2, 8, 4, 6, 5]
      = some (some "/p/.prettierrc".toList) ∧
    selectConfigFile (fun r n => r ++ '/' :: n)
        (fun p => p = "/p/.prettierrc.cjs".toList ∨ p = "/p/.prettierrc.mjs".toList)
        "/p".toList [10, 3, 0, 7, 1, 9, 2, 8, 4, 6, 5]
      = some (some "/p/.prettierrc.mjs".toList) := by
  constructor
  · obtain ⟨_, _, _, _, _, _, hfirst, _⟩ :=
      selectConfigFile_first_existing (fun r n => r ++ '/' :: n)
        (fun p => p = "/p/.prettierrc".toList ∨ p = "/p/.prettierrc.json".toList)
        "/p".toList [10, 3, 0, 7, 1, 9, 2, 8, 4, 6, 5] (by decide) (by decide)
    exact hfirst (by decide)
  · obtain ⟨priority, hpriority, _, _, hsplit, _⟩ :=
      selectConfigFile_first_existing (fun r n => r ++ '/' :: n)
        (fun p => p = "/p/.prettierrc.cjs".toList ∨ p = "/p/.prettierrc.mjs".toList)
        "/p".toList [10, 3, 0, 7, 1, 9, 2, 8, 4, 6, 5] (by decide) (by decide)
    exact hsplit (priority.take 7) ".prettierrc.mjs".toList (priority.drop 8)
      (by rw [hpriority]; rfl) (by rw [hpriority]; decide) (by decide)

/-- C5: the search root is not the shortest open folder that is a prefix of
the file path. The folder `/proj` is a prefix of `/proj/sub/file.js`, yet the
root is the `dirname` fallback; the folder `/proj/file.js.d` is not a prefix
of `/proj/file.js`, yet it is the root. The test made is
`folder.url.startsWith(uri)`. -/
theorem configSearchRoot_tests_folder_against_file (dirname : Str → Str) :
    startsWith "/proj/sub/file.js".toList "/proj".toList = true ∧
    configSearchRoot dirname [⟨"/proj".toList⟩] "/proj/sub/file.js".toList
      = dirname "/proj/sub/file.js".toList ∧
    startsWith "/proj/file.js".toList "/proj/file.js.d".toList = false ∧
    configSearchRoot dirname [⟨"/proj/file.js.d".toList⟩] "/proj/file.js".toList
      = "/proj/file.js.d".toList := by
  refine ⟨by decide, ?_, by decide, ?_⟩
  · have h : [(⟨"/proj".toList⟩ : Folder)].foldl (searchRootStep "/proj/sub/file.js".toList) []
        = [] := by decide
    simp only [configSearchRoot, h, ne_eq, not_true_eq_false, if_false]
  · have h : [(⟨"/proj/file.js.d".toList⟩ : Folder)].foldl
        (searchRootStep "/proj/file.js".toList) [] = "/proj/file.js.d".toList := by decide
    have hne : "/proj/file.js.d".toList ≠ [] := by decide
    simp only [configSearchRoot, h, ne_eq, hne, not_false_eq_true, if_true]

/-- C7: the probed filename `.prettier.config.js` matches no case of the
parse switch (its case reads `prettier.config.js`), so when it is the
selected file the method returns no config; the ten other probed filenames
are dispatched to JSON, YAML, TOML or script evaluation. -/
theorem configFormat_misses_prettier_config_js :
    ".prettier.config.js".toList ∈ configFilenames ∧
    configFormat ".prettier.config.js".toList = none ∧
    configFormat "prettier.config.js".toList = some .esModuleScript ∧
    configFilenames.map configFormat
      = [some .json, some .json, some .yaml, some .yaml, some .toml, some .esModuleScript,
         none, some .esModuleScript, some .esModuleScript, some .commonJsScript,
         some .commonJsScript] := by
  decide

/-- C8, as stated, fails: with no project config the persisted defaults are
spread into the request, and the options the engine is called with contain
the key `openErrorPageOnErrors`. -/
theorem engineOptions_has_openErrorPageOnErrors :
    ∃ request, run (constructorOptions none) none "a.js".toList [] ⟨0, 0⟩ = some request ∧
      (engineOptions request).hasKey "openErrorPageOnErrors".toList :=
  ⟨_, rfl, by decide⟩

/-- C8, amended: for every request built by `run` or `runSelection`, whatever
the persisted settings and the settings changes made since, the options the
engine is called with contain the key `openErrorPageOnErrors` when no
project config is discovered (the persisted defaults always hold it), and,
when a project config is discovered, exactly when that config has the key. -/
theorem engineOptions_openErrorPageOnErrors_iff (prettierSettings : Option Obj)
    (changes : List (Str × Value)) (configFile : Option Obj) (activeFileName code : Str)
    (selectionIsEmpty : Bool) (range : Range) (cursorPos : Position) (request : FormatRequest)
    (h : run (changes.foldl (fun o kv => onSettingsChange o kv.1 kv.2)
            (constructorOptions prettierSettings)) configFile activeFileName code cursorPos
          = some request ∨
        runSelection (changes.foldl (fun o kv => onSettingsChange o kv.1 kv.2)
            (constructorOptions prettierSettings)) configFile activeFileName code
            selectionIsEmpty range cursorPos = some request) :
    (engineOptions request).hasKey "openErrorPageOnErrors".toList ↔
      (configFile = none ∨
        ∃ config, configFile = some config ∧ config.hasKey "openErrorPageOnErrors".toList) := by
  have hsource : "openErrorPageOnErrors".toList ∈ request.cursorOptions.keys ↔
      "openErrorPageOnErrors".toList ∈ (configFile.getD
        (changes.foldl (fun o kv => onSettingsChange o kv.1 kv.2)
          (constructorOptions prettierSettings))).keys := by
    rcases h with h | h
    · rw [run_mem_keys _ _ _ _ _ _ h]
      exact ⟨fun hk => hk.resolve_left (by decide), Or.inr⟩
    · have hsel := runSelection_mem_keys _ _ _ _ _ _ _ _ h "openErrorPageOnErrors".toList
      exact ⟨fun hk => (hsel.2 hk).resolve_left (by decide), hsel.1⟩
  have hengine : (engineOptions request).hasKey "openErrorPageOnErrors".toList ↔
      "openErrorPageOnErrors".toList ∈ request.cursorOptions.keys := by
    unfold engineOptions Obj.hasKey
    rw [Obj.mem_keys_set]
    exact ⟨fun hk => hk.resolve_left (by decide), Or.inr⟩
  rw [hengine, hsource]
  cases configFile with
  | none =>
    simp only [Option.getD_none, true_or, iff_true]
    exact onSettingsChange_hasKey changes _ _ (constructorOptions_hasKey prettierSettings)
  | some config =>
    simp only [Option.getD_some, reduceCtorEq, false_or, Option.some.injEq, Obj.hasKey]
    exact ⟨fun hk => ⟨config, rfl, hk⟩, fun ⟨c, hc, hk⟩ => hc ▸ hk⟩

theorem engineOptions_openErrorPageOnErrors_iff_witness :
    ∃ request,
      runSelection (constructorOptions none)
        (some (Obj.ofList [("semi".toList, Value.bool false)])) "a.js".toList "x".toList false
        ⟨⟨0, 0⟩, ⟨0, 1⟩⟩ ⟨0, 1⟩ = some request ∧
      ((engineOptions request).hasKey "openErrorPageOnErrors".toList ↔
        ((some (Obj.ofList [("semi".toList, Value.bool false)]) : Option Obj) = none ∨
          ∃ config, some (Obj.ofList [("semi".toList, Value.bool false)]) = some config ∧
            config.hasKey "openErrorPageOnErrors".toList)) :=
  ⟨_, rfl,
    engineOptions_openErrorPageOnErrors_iff none []
      (some (Obj.ofList [("semi".toList, Value.bool false)])) "a.js".toList "x".toList false
      ⟨⟨0, 0⟩, ⟨0, 1⟩⟩ ⟨0, 1⟩ _ (Or.inr rfl)⟩

/-- C9: with the cursor at a valid position `run` builds a request. When a
project config is discovered, the keys of its options are exactly `parser`,
`cursorOffset`, `filepath` and the keys of the config, every field of the
config is in the request with the config's value, and no key of the
persisted defaults that the config lacks (other than those three) is in the
request. When no config is discovered the same holds with the persisted defaults
in place of the config. A key of the three that the options source
lacks holds the inferred parser, the cursor offset or the file name. -/
theorem run_options_from_config_or_defaults (prettierOptions : Obj)
    (configFile : Option Obj) (activeFileName code : Str) (cursorPos : Position)
    (hcursor : ValidPosition code cursorPos) :
    ∃ request cursorOffset,
      run prettierOptions configFile activeFileName code cursorPos = some request ∧
      positionToOffset code cursorPos = some cursorOffset ∧
      (∀ config, configFile = some config →
        (∀ k, request.cursorOptions.hasKey k ↔
          (k ∈ ["parser".toList, "cursorOffset".toList, "filepath".toList] ∨ config.hasKey k)) ∧
        (∀ k, config.hasKey k → request.cursorOptions.get k = config.get k) ∧
        (∀ k, prettierOptions.hasKey k → ¬ config.hasKey k →
          k ∉ ["parser".toList, "cursorOffset".toList, "filepath".toList] →
          ¬ request.cursorOptions.hasKey k) ∧
        (¬ config.hasKey "parser".toList →
          request.cursorOptions.get "parser".toList = .str (inferParser activeFileName)) ∧
        (¬ config.hasKey "cursorOffset".toList →
          request.cursorOptions.get "cursorOffset".toList = .num cursorOffset) ∧
        (¬ config.hasKey "filepath".toList →
          request.cursorOptions.get "filepath".toList = .str activeFileName)) ∧
      (configFile = none →
        (∀ k, request.cursorOptions.hasKey k ↔
          (k ∈ ["parser".toList, "cursorOffset".toList, "filepath".toList] ∨
            prettierOptions.hasKey k)) ∧
        (∀ k, prettierOptions.hasKey k →
          request.cursorOptions.get k = prettierOptions.get k)) := by
  obtain ⟨cursorOffset, hoff, _, _⟩ := positionToOffset_flat_index code cursorPos hcursor
  have hrun : ∃ request, run prettierOptions configFile activeFileName code cursorPos
      = some request := by
    unfold run
    simp only [hoff]
    exact ⟨_, rfl⟩
  obtain ⟨request, hrun⟩ := hrun
  obtain ⟨cursorOffset', hoff', hopts⟩ := run_eq _ _ _ _ _ _ hrun
  have hsame : cursorOffset' = cursorOffset := by
    rw [hoff] at hoff'
    exact (Option.some.inj hoff').symm
  subst hsame
  have hkeys := run_mem_keys _ _ _ _ _ _ hrun
  have hget : ∀ k, k ∈ (configFile.getD prettierOptions).keys →
      request.cursorOptions.get k = (configFile.getD prettierOptions).get k := by
    intro k hk
    rw [hopts, Obj.get_assign, if_pos hk]
  have hbase : ∀ k, k ∉ (configFile.getD prettierOptions).keys →
      request.cursorOptions.get k = (Obj.ofList
          [("parser".toList, .str (inferParser activeFileName)),
           ("cursorOffset".toList, .num cursorOffset'),
           ("filepath".toList, .str activeFileName)]).get k := by
    intro k hk
    rw [hopts, Obj.get_assign, if_neg hk]
  refine ⟨request, cursorOffset', hrun, hoff, ?_, ?_⟩
  · intro config hconfig
    subst hconfig
    simp only [Option.getD_some] at hkeys hget hbase
    refine ⟨hkeys, hget, ?_, ?_, ?_, ?_⟩
    · intro k _ hno hnot hk
      rcases (hkeys k).mp hk with h | h
      · exact hnot h
      · exact hno h
    · intro hno
      rw [hbase _ hno]
      rfl
    · intro hno
      rw [hbase _ hno]
      rfl
    · intro hno
      rw [hbase _ hno]
      rfl
  · intro hconfig
    subst hconfig
    simp only [Option.getD_none] at hkeys hget
    exact ⟨hkeys, hget⟩

theorem run_options_from_config_or_defaults_witness :
    ValidPosition "a\nbb".toList ⟨1, 1⟩ ∧
    ∃ request cursorOffset,
      run defaultPrettierOptions (some (Obj.ofList [("semi".toList, Value.bool false)]))
        "a.js".toList "a\nbb".toList ⟨1, 1⟩ = some request ∧
      positionToOffset "a\nbb".toList ⟨1, 1⟩ = some cursorOffset ∧
      request.cursorOptions.keys
        = ["parser".toList, "cursorOffset".toList, "filepath".toList, "semi".toList] := by
  refine ⟨by decide, ?_⟩
  obtain ⟨request, cursorOffset, hrun, hoff, _, _⟩ :=
    run_options_from_config_or_defaults defaultPrettierOptions
      (some (Obj.ofList [("semi".toList, Value.bool false)])) "a.js".toList "a\nbb".toList
      ⟨1, 1⟩ (by decide)
  refine ⟨request, cursorOffset, hrun, hoff, ?_⟩
  have hreq : run defaultPrettierOptions (some (Obj.ofList [("semi".toList, Value.bool false)]))
      "a.js".toList "a\nbb".toList ⟨1, 1⟩ = some
        { code := "a\nbb".toList
          cursorOptions := Obj.assign
            (Obj.ofList
              [("parser".toList, .str (inferParser "a.js".toList)),
               ("cursorOffset".toList, .num 3), ("filepath".toList, .str "a.js".toList)])
            (Obj.ofList [("semi".toList, Value.bool false)])
          isSelection := false
          selectionRange := none } := rfl
  rw [hreq] at hrun
  rw [← Option.some.inj hrun]
  decide

/-- C10: for every document and every non-empty selection whose rows satisfy
start.row <= end.row < number of lines, the span computed by
`getSelectionText` starts at column 0 of the selection's start row, ends at
the end of its end line (the selection's end row, or the row before when the
selection ends at column 0 of a later row), and the extracted text is the
span's whole lines joined by newlines, which is the part of the document
between the offsets of the span's start and end. Lines "a", "bb", "ccc" with
the selection (1,1)-(2,1) give the span (1,0)-(2,3) and the text "bb\nccc". -/
theorem getSelectionText_whole_lines (code : Str) (range : Range)
    (hrows : range.start.row ≤ range.end_.row)
    (hend : range.end_.row < (splitLines code).length)
    (_hne : range.start ≠ range.end_) :
    ((getSelectionText range code).1.start = ⟨range.start.row, 0⟩ ∧
      (getSelectionText range code).1.end_.row
        = (if range.end_.column = 0 ∧ range.end_.row > range.start.row
            then range.end_.row - 1 else range.end_.row) ∧
      (getSelectionText range code).1.end_.column
        = ((splitLines code).getD (getSelectionText range code).1.end_.row []).length ∧
      (getSelectionText range code).2
        = joinLines (((splitLines code).take
            ((getSelectionText range code).1.end_.row + 1)).drop
              (getSelectionText range code).1.start.row) ∧
      ∃ startOffset endOffset,
        positionToOffset code (getSelectionText range code).1.start = some startOffset ∧
        positionToOffset code (getSelectionText range code).1.end_ = some endOffset ∧
        (getSelectionText range code).2
          = (code.drop startOffset).take (endOffset - startOffset)) ∧
    getSelectionText ⟨⟨1, 1⟩, ⟨2, 1⟩⟩ "a\nbb\nccc".toList
      = (⟨⟨1, 0⟩, ⟨2, 3⟩⟩, "bb\nccc".toList) := by
  refine ⟨?_, by decide⟩
  obtain ⟨endRow, hendRow⟩ : ∃ endRow, endRow
      = (if range.end_.column = 0 ∧ range.end_.row > range.start.row
          then range.end_.row - 1 else range.end_.row) := ⟨_, rfl⟩
  have hle : range.start.row ≤ endRow := by
    rw [hendRow]
    split <;> omega
  have hlt : endRow < (splitLines code).length := by
    rw [hendRow]
    split <;> omega
  have hmin : min endRow ((splitLines code).length - 1) = endRow := by
    apply Nat.min_eq_left
    omega
  have hsel : getSelectionText range code
      = (⟨⟨range.start.row, 0⟩, ⟨endRow, ((splitLines code).getD endRow []).length⟩⟩,
         joinLines (((splitLines code).take (endRow + 1)).drop range.start.row)) := by
    unfold getSelectionText
    simp only [← hendRow, hmin]
    rw [List.getElem?_eq_getElem hlt, List.getD_eq_getElem _ _ hlt]
    rfl
  rw [hsel]
  refine ⟨rfl, hendRow, rfl, rfl,
    (linesWithNewlines ((splitLines code).take range.start.row)).length,
    ((splitLines code).getD endRow []).length
      + (linesWithNewlines ((splitLines code).take endRow)).length, ?_, ?_, ?_⟩
  · show positionToOffsetLoop (splitLines code) range.start.row 0 = _
    rw [positionToOffsetLoop_eq _ _ _ (by omega)]
    simp
  · show positionToOffsetLoop (splitLines code) endRow
      ((splitLines code).getD endRow []).length = _
    rw [positionToOffsetLoop_eq _ _ _ (by omega)]
  · have h := slice_whole_lines (splitLines code) range.start.row endRow hle hlt
    rw [joinLines_splitLines] at h
    exact h.symm

theorem getSelectionText_whole_lines_witness :
    (getSelectionText ⟨⟨1, 1⟩, ⟨2, 0⟩⟩ "a\nbb\nccc".toList).1.end_.row
      = (if (0 : Nat) = 0 ∧ 2 > 1 then 2 - 1 else 2) :=
  (getSelectionText_whole_lines "a\nbb\nccc".toList ⟨⟨1, 1⟩, ⟨2, 0⟩⟩ (by decide) (by decide)
    (by decide)).1.2.1

/-- C11: in selection mode the text written into the span is the result
string with one trailing newline removed when it ends with a newline, and
the result string unchanged otherwise; it is written over the span given.
A result `body` followed by one newline is written as `body`, so "x\n\n" is
written as "x\n". A result object is treated as its `formatted` string. -/
theorem setValueForSelection_strips_one_newline (fileId r : Str) (cursorOffset : Nat)
    (selectionRange : Range) (page : List LogEntry) :
    (setValueForSelection fileId (.text r) selectionRange page).1
      = ⟨selectionRange, if r.getLast? = some '\n' then r.dropLast else r⟩ ∧
    (∀ body : Str,
      (setValueForSelection fileId (.text (body ++ ['\n'])) selectionRange page).1.text
        = body) ∧
    (setValueForSelection fileId (.withCursor r cursorOffset) selectionRange page).1
      = (setValueForSelection fileId (.text r) selectionRange page).1 ∧
    (setValueForSelection fileId (.text "x\n\n".toList) selectionRange page).1.text
      = "x\n".toList := by
  have hgen : ∀ t : Str, (setValueForSelection fileId (.text t) selectionRange page).1
      = ⟨selectionRange, if t.getLast? = some '\n' then t.dropLast else t⟩ := by
    intro t
    simp only [setValueForSelection, slice_zero_neg_one]
    by_cases h : t.getLast? = some '\n'
    · rw [if_pos ((endsWith_newline_iff t).mpr h), if_pos h]
    · rw [if_neg (fun hw => h ((endsWith_newline_iff t).mp hw)), if_neg h]
  refine ⟨hgen r, ?_, rfl, ?_⟩
  · intro body
    rw [hgen]
    simp
  · rw [hgen]
    show (if "x\n\n".toList.getLast? = some '\n' then "x\n\n".toList.dropLast
      else "x\n\n".toList) = "x\n".toList
    decide

/-- C12: starting from the empty log, after any sequence of `#showError` and
`#removeErrors` calls (a call of `#showError` that throws leaves the log as
it was) the log holds at most ten entries; when the clock readings of the
recorded errors increase, the log is ordered newest first; a record on a log
of ten entries puts the new entry first and drops the last, oldest one, and
a record on a shorter log only puts the new entry first. A record is a call
of `#showError` for a file the editor holds, the only calls that reach the
prepend. Recording eleven errors for eleven different files leaves the ten
most recent entries, the earliest evicted. -/
theorem errorLog_capped_newest_first (ops : List LogOp) :
    (ops.foldl applyLogOp []).length ≤ 10 ∧
    ((recordTimes ops).Pairwise (fun a b => a < b) →
      ((ops.foldl applyLogOp []).map LogEntry.time).Pairwise (fun a b => a > b)) ∧
    (∀ (fileName fileId message : Str) (now : Nat) (page : List LogEntry), page.length = 10 →
      showError (some fileName) fileId message now page
        = some (⟨fileId, fileName, message, now⟩ :: page.dropLast)) ∧
    (∀ (fileName fileId message : Str) (now : Nat) (page : List LogEntry), page.length < 10 →
      showError (some fileName) fileId message now page
        = some (⟨fileId, fileName, message, now⟩ :: page)) ∧
    [LogOp.record (some "0.js".toList) "f0".toList [] 0,
      .record (some "1.js".toList) "f1".toList [] 1,
      .record (some "2.js".toList) "f2".toList [] 2,
      .record (some "3.js".toList) "f3".toList [] 3,
      .record (some "4.js".toList) "f4".toList [] 4,
      .record (some "5.js".toList) "f5".toList [] 5,
      .record (some "6.js".toList) "f6".toList [] 6,
      .record (some "7.js".toList) "f7".toList [] 7,
      .record (some "8.js".toList) "f8".toList [] 8,
      .record (some "9.js".toList) "f9".toList [] 9,
      .record (some "10.js".toList) "f10".toList [] 10].foldl applyLogOp []
      = [⟨"f10".toList, "10.js".toList, [], 10⟩, ⟨"f9".toList, "9.js".toList, [], 9⟩,
         ⟨"f8".toList, "8.js".toList, [], 8⟩, ⟨"f7".toList, "7.js".toList, [], 7⟩,
         ⟨"f6".toList, "6.js".toList, [], 6⟩, ⟨"f5".toList, "5.js".toList, [], 5⟩,
         ⟨"f4".toList, "4.js".toList, [], 4⟩, ⟨"f3".toList, "3.js".toList, [], 3⟩,
         ⟨"f2".toList, "2.js".toList, [], 2⟩, ⟨"f1".toList, "1.js".toList, [], 1⟩] := by
  refine ⟨length_foldl_applyLogOp_le ops [] (by simp), ?_, ?_, ?_, by decide⟩
  · intro hops
    exact newest_first_foldl ops [] (by simp) hops (by simp)
  · intro fileName fileId message now page hlen
    have hgt : ((⟨fileId, fileName, message, now⟩ : LogEntry) :: page).length > 10 := by
      rw [List.length_cons]
      omega
    have hne : page ≠ [] := by
      intro hnil
      rw [hnil] at hlen
      simp at hlen
    rw [showError_some, if_pos hgt, List.dropLast_cons_of_ne_nil hne]
  · intro fileName fileId message now page hlen
    have hle : ¬ ((⟨fileId, fileName, message, now⟩ : LogEntry) :: page).length > 10 := by
      rw [List.length_cons]
      omega
    rw [showError_some, if_neg hle]

theorem errorLog_capped_newest_first_witness :
    (([LogOp.record (some "a.js".toList) "a".toList [] 1,
        .record (some "b.js".toList) "b".toList [] 2, .record none "z".toList [] 0,
        .clear "a".toList,
        .record (some "c.js".toList) "c".toList [] 5].foldl applyLogOp []).map
          LogEntry.time).Pairwise
      (fun a b => a > b) :=
  (errorLog_capped_newest_first
    [LogOp.record (some "a.js".toList) "a".toList [] 1,
      .record (some "b.js".toList) "b".toList [] 2, .record none "z".toList [] 0,
      .clear "a".toList,
      .record (some "c.js".toList) "c".toList [] 5]).2.1 (by decide)

/-- C13: for every log and file identifier, `removeErrors` leaves no entry
tagged with that identifier and leaves the entries tagged with another
identifier in place, in the same order: the result is the log filtered to the
entries of other files. It is what `setValue` and `setValueForSelection` do
to the log after a successful format of the file, and what the handler of the
file's removal does. -/
theorem removeErrors_clears_file (fileId : Str) (page : List LogEntry)
    (document formatted editorValue : Str) (cursorOffset : Nat) (result : FormatResult)
    (selectionRange : Range) :
    (∀ entry ∈ removeErrors fileId page, entry.file ≠ fileId) ∧
    removeErrors fileId page = page.filter (fun entry => entry.file ≠ fileId) ∧
    (setValue fileId document formatted editorValue cursorOffset page).2.2
      = removeErrors fileId page ∧
    (setValueForSelection fileId result selectionRange page).2 = removeErrors fileId page ∧
    removeErrorsByFile fileId page = removeErrors fileId page := by
  refine ⟨?_, removeErrors_eq_filter fileId page, rfl, rfl, rfl⟩
  intro entry hentry
  rw [removeErrors_eq_filter] at hentry
  simpa using (List.mem_filter.mp hentry).2

/-- C14: for every text and every offset at or past the length of the text,
the scan of `cursorOffsetToCursorPos` selects no line (the test is false at
every line) and the result is row 0 with column length + 1, the sum of
line length + 1 over all lines; that position is not valid in the text. -/
theorem cursorOffsetToCursorPos_saturates (text : Str) (offset : Nat)
    (h : text.length ≤ offset) :
    cursorOffsetToCursorPos text offset = ⟨0, text.length + 1⟩ ∧
    (linesWithNewlines (splitLines text)).length = text.length + 1 ∧
    (∀ i, i < (splitLines text).length →
      ¬ ((linesWithNewlines ((splitLines text).take i)).length
          + ((splitLines text).getD i []).length
          + (if i ≠ (splitLines text).length - 1 then 1 else 0) > offset)) ∧
    ¬ ValidPosition text ⟨0, text.length + 1⟩ := by
  have hlen : (linesWithNewlines (splitLines text)).length = text.length + 1 := by
    rw [length_linesWithNewlines _ (splitLines_ne_nil text), joinLines_splitLines]
  have hjoin : (joinLines (splitLines text)).length = text.length := by
    rw [joinLines_splitLines]
  refine ⟨?_, hlen, ?_, ?_⟩
  · unfold cursorOffsetToCursorPos
    simp only
    rw [cursorOffsetLoop_saturates _ _ _ 0 0 (by simp) (by rw [hjoin]; omega), hlen]
    simp
  · intro i hi
    by_cases hlast : i = (splitLines text).length - 1
    · have hle := flat_index_le_length (splitLines text) i
        ((splitLines text).getD i []).length hi (Nat.le_refl _)
      rw [if_neg (by simpa using hlast)]
      omega
    · have hnext : i + 1 < (splitLines text).length := by omega
      have hle := flat_index_le_length (splitLines text) (i + 1) 0 hnext (Nat.zero_le _)
      rw [length_linesWithNewlines_take_succ _ i hi] at hle
      rw [if_pos hlast]
      omega
  · rintro ⟨hrow, hcol⟩
    have hle := flat_index_le_length (splitLines text) 0
      ((splitLines text).getD 0 []).length hrow (Nat.le_refl _)
    simp only [List.take_zero, linesWithNewlines, List.length_nil, Nat.zero_add] at hle
    simp only at hcol
    omega

theorem cursorOffsetToCursorPos_saturates_witness :
    cursorOffsetToCursorPos "a\nbb".toList 4 = ⟨0, 5⟩ ∧ ¬ ValidPosition "a\nbb".toList ⟨0, 5⟩ :=
  ⟨(cursorOffsetToCursorPos_saturates "a\nbb".toList 4 (by decide)).1,
   (cursorOffsetToCursorPos_saturates "a\nbb".toList 4 (by decide)).2.2.2⟩

end AcodePrettier
